import Mathlib

/-!
Verification of the XLSX-to-Monday bulk user-upload script
(`scripts/add-users.py`): the retrying request client, the row extractor,
dedupe/limit, batch chunking and the batch-upload orchestrator, shallowly
embedded in Lean.
-/

namespace AddUsers

/-- Mirrors the `RetryConfig` dataclass: the retry budget and the backoff
parameters, all in milliseconds.  `retries` is an `Int` because the CLI
accepts any integer for `--retries`. -/
structure RetryConfig where
  retries : Int
  min_delay_ms : Int
  max_delay_ms : Int
  jitter_ms : Int

/-- The capped exponential backoff computed before a retry sleep:
`backoff = min(min_delay_ms * 2**attempt, max_delay_ms)`. -/
def backoffMs (cfg : RetryConfig) (attempt : Nat) : Int :=
  min (cfg.min_delay_ms * 2 ^ attempt) cfg.max_delay_ms

/-- The millisecond amount slept by `jitter_sleep(base_ms, jitter_ms)` when
the random draw `random.randint(0, max(0, jitter_ms))` returns `j`. -/
def jitterSleepMs (base_ms j : Int) : Int := base_ms + j

/-- Boolean success of one attempt of the `try:` body. -/
def reqOk : Except ε α → Bool
  | .ok _ => true
  | .error _ => false

/-- The exception carried by a failed attempt, `none` on success. -/
def errOf : Except ε α → Option ε
  | .ok _ => none
  | .error e => some e

/-- Observable trace of one `monday_request_with_retry` call: how many
transport calls (`requests.post`) were made, the sleeps performed between
attempts (in ms, in order), and the outcome — `.ok payload` for a returned
decoded body, `.error lastErr` for the final `RequestFailed`
(`RuntimeError(... ) from last_err`), whose cause is `none` when no attempt
ever ran. -/
structure RetryTrace (ε α : Type) where
  calls : Nat
  sleeps : List Int
  result : Except (Option ε) α

/-- The body of `for attempt in range(retries + 1)`, recursing on the number
of remaining iterations.  `transport attempt` abstracts the whole `try:`
block of attempt number `attempt` (POST, status-code check, JSON decode,
GraphQL `errors` check): `.ok` is a successfully decoded payload, `.error`
any raised exception.  When the attempt fails and `fuel = 0` the loop is at
`attempt >= retry_cfg.retries`, so it breaks and raises; otherwise it sleeps
`backoff + jitter` and retries. -/
def retryGo (transport : Nat → Except ε α) (cfg : RetryConfig) (jit : Nat → Int) :
    Nat → Nat → Option ε → RetryTrace ε α
  | 0, _, lastErr => ⟨0, [], .error lastErr⟩
  | fuel + 1, attempt, _ =>
    match transport attempt with
    | .ok payload => ⟨1, [], .ok payload⟩
    | .error e =>
      if fuel = 0 then
        ⟨1, [], .error (some e)⟩
      else
        let rest := retryGo transport cfg jit fuel (attempt + 1) (some e)
        ⟨rest.calls + 1,
         jitterSleepMs (backoffMs cfg attempt) (jit attempt) :: rest.sleeps,
         rest.result⟩

/-- Model of `monday_request_with_retry`: runs the attempt loop `range(retries + 1)`
starting from attempt 0 with `last_err = None`.  `jit k` is the jitter drawn
by `random.randint` before the retry that follows failing attempt `k`. -/
def monday_request_with_retry (transport : Nat → Except ε α) (cfg : RetryConfig)
    (jit : Nat → Int) : RetryTrace ε α :=
  retryGo transport cfg jit (cfg.retries + 1).toNat 0 none

theorem retryGo_calls_le (transport : Nat → Except ε α) (cfg : RetryConfig)
    (jit : Nat → Int) :
    ∀ (fuel a : Nat) (le : Option ε), (retryGo transport cfg jit fuel a le).calls ≤ fuel := by
  intro fuel
  induction fuel with
  | zero => intro a le; simp [retryGo]
  | succ f ih =>
    intro a le
    cases h : transport a with
    | ok p => simp [retryGo, h]
    | error e =>
      by_cases hf : f = 0
      · simp [retryGo, h, hf]
      · have hrec := ih (a + 1) (some e)
        simp only [retryGo, h]
        rw [if_neg hf]
        exact Nat.succ_le_succ hrec

theorem sleeps_shift (cfg : RetryConfig) (jit : Nat → Int) (a f : Nat) :
    jitterSleepMs (backoffMs cfg a) (jit a) ::
        (List.range f).map (fun i => jitterSleepMs (backoffMs cfg (a + 1 + i)) (jit (a + 1 + i)))
      = (List.range (f + 1)).map (fun i => jitterSleepMs (backoffMs cfg (a + i)) (jit (a + i))) := by
  have harg : (fun i => jitterSleepMs (backoffMs cfg (a + 1 + i)) (jit (a + 1 + i)))
      = fun i => jitterSleepMs (backoffMs cfg (a + Nat.succ i)) (jit (a + Nat.succ i)) := by
    funext i
    have h : a + 1 + i = a + Nat.succ i := by omega
    rw [h]
  rw [List.range_succ_eq_map, List.map_cons, List.map_map, harg]
  rfl

/-- If every attempt in the window `[a, a + fuel)` fails, the loop makes all
`fuel` transport calls, sleeps after every attempt but the last, and ends
with the error of the last attempt. -/
theorem retryGo_all_fail (transport : Nat → Except ε α) (cfg : RetryConfig)
    (jit : Nat → Int) :
    ∀ (fuel a : Nat) (le : Option ε), 0 < fuel →
      (∀ j, a ≤ j → j < a + fuel → reqOk (transport j) = false) →
      retryGo transport cfg jit fuel a le =
        ⟨fuel,
         (List.range (fuel - 1)).map
           (fun i => jitterSleepMs (backoffMs cfg (a + i)) (jit (a + i))),
         .error (errOf (transport (a + fuel - 1)))⟩ := by
  intro fuel
  induction fuel with
  | zero => intro a le h; omega
  | succ f ih =>
    intro a le _ hfail
    have ha : reqOk (transport a) = false := hfail a (Nat.le_refl a) (by omega)
    cases h : transport a with
    | ok p => rw [h] at ha; simp [reqOk] at ha
    | error e =>
      by_cases hf : f = 0
      · subst hf
        have hidx : a + 1 - 1 = a := by omega
        simp [retryGo, h, hidx, errOf]
      · have hrest := ih (a + 1) (some e) (by omega)
          (fun j hj1 hj2 => hfail j (by omega) (by omega))
        simp only [retryGo, h, if_neg hf, hrest]
        obtain ⟨g, rfl⟩ : ∃ g, f = g + 1 := ⟨f - 1, by omega⟩
        rw [RetryTrace.mk.injEq]
        refine ⟨rfl, ?_, ?_⟩
        · simpa using sleeps_shift cfg jit a g
        · rw [show a + 1 + (g + 1) - 1 = a + (g + 1 + 1) - 1 by omega]

/-- If the attempts in `[a, a + k)` fail and attempt `a + k` succeeds (with
`k` within the budget), the loop returns that payload after exactly `k + 1`
transport calls, having slept after each of the `k` failures. -/
theorem retryGo_success (transport : Nat → Except ε α) (cfg : RetryConfig)
    (jit : Nat → Int) :
    ∀ (k fuel a : Nat) (le : Option ε) (p : α), k < fuel →
      (∀ j, a ≤ j → j < a + k → reqOk (transport j) = false) →
      transport (a + k) = .ok p →
      retryGo transport cfg jit fuel a le =
        ⟨k + 1,
         (List.range k).map (fun i => jitterSleepMs (backoffMs cfg (a + i)) (jit (a + i))),
         .ok p⟩ := by
  intro k
  induction k with
  | zero =>
    intro fuel a le p hk hfail hok
    cases fuel with
    | zero => omega
    | succ f =>
      have hok' : transport a = .ok p := hok
      simp [retryGo, hok']
  | succ k' ih =>
    intro fuel a le p hk hfail hok
    cases fuel with
    | zero => omega
    | succ f =>
      have ha : reqOk (transport a) = false := hfail a (Nat.le_refl a) (by omega)
      cases h : transport a with
      | ok q => rw [h] at ha; simp [reqOk] at ha
      | error e =>
        have hf : f ≠ 0 := by omega
        have hok' : transport (a + 1 + k') = .ok p := by
          rw [show a + 1 + k' = a + (k' + 1) by omega]; exact hok
        have hrest := ih f (a + 1) (some e) p (by omega)
          (fun j hj1 hj2 => hfail j (by omega) (by omega)) hok'
        simp only [retryGo, h, if_neg hf, hrest]
        rw [RetryTrace.mk.injEq]
        exact ⟨rfl, sleeps_shift cfg jit a k', rfl⟩

theorem mrwr_all_fail (R : Nat) (cfg : RetryConfig) (hR : cfg.retries = (R : Int))
    (transport : Nat → Except ε α) (jit : Nat → Int)
    (hfail : ∀ j, j ≤ R → reqOk (transport j) = false) :
    monday_request_with_retry transport cfg jit =
      ⟨R + 1,
       (List.range R).map (fun i => jitterSleepMs (backoffMs cfg i) (jit i)),
       .error (errOf (transport R))⟩ := by
  have hfuel : (cfg.retries + 1).toNat = R + 1 := by omega
  unfold monday_request_with_retry
  rw [hfuel]
  have := retryGo_all_fail transport cfg jit (R + 1) 0 none (by omega)
    (fun j hj1 hj2 => hfail j (by omega))
  simpa using this

theorem mrwr_first_success (R : Nat) (cfg : RetryConfig) (hR : cfg.retries = (R : Int))
    (transport : Nat → Except ε α) (jit : Nat → Int) (k : Nat) (p : α) (hk : k ≤ R)
    (hfail : ∀ j, j < k → reqOk (transport j) = false) (hok : transport k = .ok p) :
    monday_request_with_retry transport cfg jit =
      ⟨k + 1,
       (List.range k).map (fun i => jitterSleepMs (backoffMs cfg i) (jit i)),
       .ok p⟩ := by
  have hfuel : (cfg.retries + 1).toNat = R + 1 := by omega
  unfold monday_request_with_retry
  rw [hfuel]
  have := retryGo_success transport cfg jit k (R + 1) 0 none p (by omega)
    (fun j hj1 hj2 => hfail j (by omega)) (by simpa using hok)
  simpa using this

/-- In every run, the sleeps performed are an initial schedule
`backoff 0 + jit 0, backoff 1 + jit 1, ...` of length at most `R` — one
entry per failing try that was not the last allowed attempt. -/
theorem mrwr_sleeps_schedule (R : Nat) (cfg : RetryConfig) (hR : cfg.retries = (R : Int))
    (transport : Nat → Except ε α) (jit : Nat → Int) :
    ∃ m : Nat, m ≤ R ∧
      (monday_request_with_retry transport cfg jit).sleeps =
        (List.range m).map (fun i => jitterSleepMs (backoffMs cfg i) (jit i)) := by
  classical
  by_cases hall : ∀ j, j ≤ R → reqOk (transport j) = false
  · exact ⟨R, Nat.le_refl R, by rw [mrwr_all_fail R cfg hR transport jit hall]⟩
  · push_neg at hall
    have hex : ∃ j, j ≤ R ∧ reqOk (transport j) = true := by
      obtain ⟨j, hj, hne⟩ := hall
      refine ⟨j, hj, ?_⟩
      cases hb : reqOk (transport j) with
      | true => rfl
      | false => exact absurd hb hne
    obtain ⟨p, hp⟩ : ∃ p, transport (Nat.find hex) = .ok p := by
      have hkT : reqOk (transport (Nat.find hex)) = true := (Nat.find_spec hex).2
      cases h : transport (Nat.find hex) with
      | ok p => exact ⟨p, rfl⟩
      | error e => rw [h] at hkT; simp [reqOk] at hkT
    have hbelow : ∀ j, j < Nat.find hex → reqOk (transport j) = false := by
      intro j hj
      have hmin := Nat.find_min hex hj
      have hjR : j ≤ R := Nat.le_trans (Nat.le_of_lt hj) (Nat.find_spec hex).1
      cases hb : reqOk (transport j) with
      | true => exact absurd ⟨hjR, hb⟩ hmin
      | false => rfl
    refine ⟨Nat.find hex, (Nat.find_spec hex).1, ?_⟩
    rw [mrwr_first_success R cfg hR transport jit (Nat.find hex) p
      (Nat.find_spec hex).1 hbelow hp]

/-- C1: with `maxAttempts = R ≥ 0`, the Request Client makes at most `R + 1`
transport calls; if all `R + 1` tries fail it raises `RequestFailed` carrying
the last try's error after exactly `R + 1` calls; if the first success is try
`k ≤ R` it returns that decoded body after exactly `k + 1` calls, making no
further ones. -/
theorem retry_client_call_bound (R : Nat) (cfg : RetryConfig)
    (hR : cfg.retries = (R : Int)) (transport : Nat → Except ε α) (jit : Nat → Int) :
    (monday_request_with_retry transport cfg jit).calls ≤ R + 1
    ∧ ((∀ j, j ≤ R → reqOk (transport j) = false) →
        monday_request_with_retry transport cfg jit =
          ⟨R + 1,
           (List.range R).map (fun i => jitterSleepMs (backoffMs cfg i) (jit i)),
           .error (errOf (transport R))⟩)
    ∧ (∀ (k : Nat) (p : α), k ≤ R → (∀ j, j < k → reqOk (transport j) = false) →
        transport k = .ok p →
        monday_request_with_retry transport cfg jit =
          ⟨k + 1,
           (List.range k).map (fun i => jitterSleepMs (backoffMs cfg i) (jit i)),
           .ok p⟩) := by
  refine ⟨?_, mrwr_all_fail R cfg hR transport jit,
    fun k p hk hfail hok => mrwr_first_success R cfg hR transport jit k p hk hfail hok⟩
  have hfuel : (cfg.retries + 1).toNat = R + 1 := by omega
  unfold monday_request_with_retry
  rw [hfuel]
  exact retryGo_calls_le transport cfg jit (R + 1) 0 none

def cfgA : RetryConfig := ⟨1, 250, 5000, 250⟩

def cfgNeg : RetryConfig := ⟨-1, 250, 5000, 250⟩

def failT : Nat → Except Int Nat := fun _ => .error 7

def zeroJit : Nat → Int := fun _ => 0

theorem retry_client_call_bound_witness :
    cfgA.retries = ((1 : Nat) : Int)
    ∧ (monday_request_with_retry failT cfgA zeroJit).calls ≤ 1 + 1 :=
  ⟨by decide, (retry_client_call_bound 1 cfgA (by decide) failT zeroJit).1⟩

/-- C9: with a negative retry budget the attempt loop `range(retries + 1)`
is empty, so no transport call is made and `RequestFailed` is raised at once
with `last_err = None` as its cause. -/
theorem retry_negative_budget (cfg : RetryConfig) (h : cfg.retries < 0)
    (transport : Nat → Except ε α) (jit : Nat → Int) :
    monday_request_with_retry transport cfg jit = ⟨0, [], .error none⟩ := by
  have hfuel : (cfg.retries + 1).toNat = 0 := by omega
  unfold monday_request_with_retry
  rw [hfuel]
  simp [retryGo]

theorem retry_negative_budget_witness :
    monday_request_with_retry failT cfgNeg zeroJit = ⟨0, [], .error none⟩ :=
  retry_negative_budget cfgNeg (by decide) failT zeroJit

/-- C6: each failing try `k` that is not the last allowed attempt is followed
by a sleep of exactly `min(min_delay_ms * 2**k, max_delay_ms) + jit k`, where
`jit k` is the `randint(0, max(0, jitter_ms))` draw; the last allowed attempt
is followed by no sleep (`R` sleeps for `R + 1` failing tries, `k` sleeps
when try `k` is the first success) and `RequestFailed` carries the last error
as cause. -/
theorem retry_backoff_schedule (R : Nat) (cfg : RetryConfig)
    (hR : cfg.retries = (R : Int)) (transport : Nat → Except ε α) (jit : Nat → Int)
    (hjit : ∀ k, 0 ≤ jit k ∧ jit k ≤ max 0 cfg.jitter_ms) :
    ((∀ j, j ≤ R → reqOk (transport j) = false) →
        (monday_request_with_retry transport cfg jit).sleeps =
          (List.range R).map (fun k => min (cfg.min_delay_ms * 2 ^ k) cfg.max_delay_ms + jit k)
        ∧ (monday_request_with_retry transport cfg jit).sleeps.length = R
        ∧ (monday_request_with_retry transport cfg jit).result = .error (errOf (transport R)))
    ∧ (∀ (k : Nat) (p : α), k ≤ R → (∀ j, j < k → reqOk (transport j) = false) →
        transport k = .ok p →
        (monday_request_with_retry transport cfg jit).sleeps =
          (List.range k).map (fun j => min (cfg.min_delay_ms * 2 ^ j) cfg.max_delay_ms + jit j))
    ∧ (∀ k, k < (monday_request_with_retry transport cfg jit).sleeps.length →
        (monday_request_with_retry transport cfg jit).sleeps.getD k 0 =
          min (cfg.min_delay_ms * 2 ^ k) cfg.max_delay_ms + jit k
        ∧ min (cfg.min_delay_ms * 2 ^ k) cfg.max_delay_ms ≤
            (monday_request_with_retry transport cfg jit).sleeps.getD k 0
        ∧ (monday_request_with_retry transport cfg jit).sleeps.getD k 0 ≤
            min (cfg.min_delay_ms * 2 ^ k) cfg.max_delay_ms + max 0 cfg.jitter_ms) := by
  refine ⟨?_, ?_, ?_⟩
  · intro hfail
    rw [mrwr_all_fail R cfg hR transport jit hfail]
    exact ⟨rfl, by simp, rfl⟩
  · intro k p hk hfail hok
    rw [mrwr_first_success R cfg hR transport jit k p hk hfail hok]
    rfl
  · intro k hk
    obtain ⟨m, hmR, hs⟩ := mrwr_sleeps_schedule R cfg hR transport jit
    rw [hs] at hk ⊢
    have hk' : k < m := by simpa using hk
    have hget : ((List.range m).map
          (fun i => jitterSleepMs (backoffMs cfg i) (jit i))).getD k 0 =
        jitterSleepMs (backoffMs cfg k) (jit k) := by
      rw [List.getD_eq_getElem _ _ (by simpa using hk')]
      simp
    rw [hget]
    refine ⟨rfl, ?_, ?_⟩
    · exact le_add_of_nonneg_right (hjit k).1
    · exact add_le_add_left (hjit k).2 _

theorem retry_backoff_schedule_witness :
    (monday_request_with_retry failT cfgA zeroJit).sleeps =
      (List.range 1).map (fun k => min (cfgA.min_delay_ms * 2 ^ k) cfgA.max_delay_ms + zeroJit k) :=
  ((retry_backoff_schedule 1 cfgA (by decide) failT zeroJit
      (fun k => ⟨le_refl 0, le_max_left 0 cfgA.jitter_ms⟩)).1 (fun j hj => rfl)).1

/-- Model of `chunked(lst, n)`: yields the slices `lst[i : i + n]` for
`i = 0, n, 2n, ...`.  For `n = 0` Python's `range(0, len(lst), 0)` raises
`ValueError`; the orchestrator only ever calls this with `max(1, batch) ≥ 1`
and every claim assumes `n ≥ 1`, so `n = 0` is mapped to the empty output
here. -/
def chunked (lst : List α) (n : Nat) : List (List α) :=
  if h1 : lst.isEmpty then []
  else if h2 : n = 0 then []
  else lst.take n :: chunked (lst.drop n) n
termination_by lst.length
decreasing_by
  simp only [List.length_drop]
  have h3 : lst ≠ [] := by simpa [List.isEmpty_iff] using h1
  have h4 : 0 < lst.length := List.length_pos.mpr h3
  omega

theorem chunked_nil (n : Nat) : chunked ([] : List α) n = [] := by
  rw [chunked]
  rfl

theorem chunked_cons (lst : List α) (n : Nat) (hne : lst ≠ []) (hn : n ≠ 0) :
    chunked lst n = lst.take n :: chunked (lst.drop n) n := by
  rw [chunked]
  simp [List.isEmpty_iff, hne, hn]

theorem chunked_length : ∀ (l : List α) (n : Nat),
    (chunked l (n + 1)).length = (l.length + n) / (n + 1)
  | [], n => by
    rw [chunked_nil]
    simp only [List.length_nil, Nat.zero_add]
    rw [Nat.div_eq_of_lt (by omega)]
  | x :: xs, n => by
    rw [chunked_cons _ _ (by simp) (by omega)]
    have ih := chunked_length ((x :: xs).drop (n + 1)) n
    simp only [List.length_cons, List.length_drop] at ih ⊢
    rw [ih]
    rw [show xs.length + 1 + n = xs.length + (n + 1) by omega,
      Nat.add_div_right _ (Nat.succ_pos n)]
    rcases le_or_lt n xs.length with hle | hlt
    · rw [show xs.length + 1 - (n + 1) = xs.length - n by omega, Nat.sub_add_cancel hle]
    · rw [show xs.length + 1 - (n + 1) = 0 by omega]
      rw [Nat.div_eq_of_lt (by omega), Nat.div_eq_of_lt (by omega)]
termination_by l _ => l.length
decreasing_by simp only [List.length_drop, List.length_cons]; omega

theorem chunked_size_of_ne_last : ∀ (l : List α) (n i : Nat),
    i + 1 < (chunked l (n + 1)).length →
    ((chunked l (n + 1)).getD i []).length = n + 1
  | [], n, i => by
    rw [chunked_nil]
    intro h
    simp at h
  | x :: xs, n, i => by
    rw [chunked_cons _ _ (by simp) (by omega)]
    intro h
    cases i with
    | zero =>
      have hd : (x :: xs).drop (n + 1) ≠ [] := by
        intro h0
        rw [h0, chunked_nil] at h
        simp at h
      have hlen : n + 1 < (x :: xs).length := by
        have h5 : 0 < ((x :: xs).drop (n + 1)).length := List.length_pos.mpr hd
        simp only [List.length_drop, List.length_cons] at h5 ⊢
        omega
      simp only [List.getD_cons_zero, List.length_take, List.length_cons] at hlen ⊢
      omega
    | succ j =>
      simp only [List.getD_cons_succ]
      refine chunked_size_of_ne_last ((x :: xs).drop (n + 1)) n j ?_
      simp only [List.length_cons] at h
      omega
termination_by l _ _ => l.length
decreasing_by simp only [List.length_drop, List.length_cons]; omega

theorem chunked_last_size : ∀ (l : List α) (n : Nat) (last : List α),
    (chunked l (n + 1)).getLast? = some last →
    last.length = l.length - (n + 1) * ((chunked l (n + 1)).length - 1)
  | [], n, last => by
    rw [chunked_nil]
    intro h
    simp at h
  | x :: xs, n, last => by
    rw [chunked_cons _ _ (by simp) (by omega)]
    intro h
    by_cases hd : (x :: xs).drop (n + 1) = []
    · rw [hd, chunked_nil] at h ⊢
      have hlast : (x :: xs).take (n + 1) = last := by simpa using h
      have h5 := congrArg List.length hd
      simp only [List.length_drop, List.length_nil, List.length_cons] at h5
      rw [← hlast]
      simp only [List.length_take, List.length_cons, List.length_nil]
      omega
    · have hrest_ne : chunked ((x :: xs).drop (n + 1)) (n + 1) ≠ [] := by
        cases hc : (x :: xs).drop (n + 1) with
        | nil => exact absurd hc hd
        | cons y ys => rw [chunked_cons _ _ (by simp) (by omega)]; simp
      cases hr : chunked ((x :: xs).drop (n + 1)) (n + 1) with
      | nil => exact absurd hr hrest_ne
      | cons c cs =>
        rw [hr] at h
        rw [List.getLast?_cons_cons] at h
        have ih := chunked_last_size ((x :: xs).drop (n + 1)) n last (by rw [hr]; exact h)
        rw [hr] at ih
        simp only [List.length_cons, List.length_drop] at ih ⊢
        rw [ih]
        rw [show cs.length + 1 - 1 = cs.length from rfl,
          show cs.length + 1 + 1 - 1 = cs.length + 1 from rfl, Nat.mul_succ]
        generalize (n + 1) * cs.length = K
        omega
termination_by l _ _ => l.length
decreasing_by simp only [List.length_drop, List.length_cons]; omega

theorem chunked_flatten : ∀ (l : List α) (n : Nat), (chunked l (n + 1)).flatten = l
  | [], n => by rw [chunked_nil]; rfl
  | x :: xs, n => by
    rw [chunked_cons _ _ (by simp) (by omega)]
    rw [List.flatten_cons, chunked_flatten ((x :: xs).drop (n + 1)) n]
    exact List.take_append_drop (n + 1) (x :: xs)
termination_by l _ => l.length
decreasing_by simp only [List.length_drop, List.length_cons]; omega

/-- C5: for `N` records and batch size `B ≥ 1`, `chunked` produces exactly
`ceil(N/B) = (N + B - 1) / B` contiguous batches; every batch other than the
last has size exactly `B`, and the last batch has size
`N - B * (ceil(N/B) - 1)`. -/
theorem chunked_partition (lst : List α) (B : Nat) (hB : 1 ≤ B) :
    (chunked lst B).length = (lst.length + B - 1) / B
    ∧ (∀ i, i + 1 < (chunked lst B).length → ((chunked lst B).getD i []).length = B)
    ∧ (∀ last, (chunked lst B).getLast? = some last →
        last.length = lst.length - B * ((lst.length + B - 1) / B - 1)) := by
  obtain ⟨n, rfl⟩ : ∃ n, B = n + 1 := ⟨B - 1, by omega⟩
  have hlen := chunked_length lst n
  rw [show lst.length + (n + 1) - 1 = lst.length + n by omega]
  refine ⟨hlen, fun i hi => chunked_size_of_ne_last lst n i hi, fun last hl => ?_⟩
  rw [← hlen]
  exact chunked_last_size lst n last hl

theorem chunked_partition_witness :
    (chunked [1, 2, 3] 2).length = (([1, 2, 3] : List Nat).length + 2 - 1) / 2 :=
  (chunked_partition [1, 2, 3] 2 (by omega)).1

/-- One (id, name) record yielded by the extractor: user id from column A,
optional user name from column B. -/
abbrev UserRec := String × Option String

/-- Reading cell `i` of a worksheet row, as the script does:
`str(row[i] if row and len(row) > i else "").strip()`.  A column missing
because the row is short reads as `""`. -/
def cellStr (row : List String) (i : Nat) : String :=
  (row.getD i "").trim

/-- The fixed department value compared against column 3 (index 3). -/
def required_department : String := "בה\"ס לרפואה"

/-- The per-row body of `read_users_from_workbook`: `none` when the row is
dropped (`continue`), `some (user_id, user_name?)` when it is yielded. -/
def extractRow (row : List String) : Option UserRec :=
  let user_id := cellStr row 0
  let user_name := cellStr row 1
  let department := cellStr row 3
  if user_id = "" then none
  else if department ≠ required_department then none
  else some (user_id, if user_name = "" then none else some user_name)

/-- Model of `read_users_from_workbook`: skips row index 0 when `skip_header`, then
yields the surviving rows' records in order. -/
def read_users_from_workbook (rows : List (List String)) (skip_header : Bool) :
    List UserRec :=
  (if skip_header then rows.drop 1 else rows).filterMap extractRow

/-- C3: a row yields a record iff its trimmed id (column 0) is non-empty and
its trimmed department (column 3) equals the fixed required value exactly;
a column missing because the row is short reads as the empty string rather
than erroring; and every yielded record comes from some surviving row of the
(possibly header-skipped) input. -/
theorem extractor_filter (row : List String) :
    ((extractRow row).isSome ↔
      cellStr row 0 ≠ "" ∧ cellStr row 3 = required_department)
    ∧ (∀ i, row.length ≤ i → row.getD i "" = "")
    ∧ (∀ (rows : List (List String)) (sh : Bool) (r : UserRec),
        r ∈ read_users_from_workbook rows sh →
          ∃ row2 ∈ (if sh then rows.drop 1 else rows), extractRow row2 = some r) := by
  refine ⟨?_, ?_, ?_⟩
  · by_cases h1 : cellStr row 0 = ""
    · simp [extractRow, h1]
    · by_cases h2 : cellStr row 3 = required_department
      · simp [extractRow, h1, h2]
      · simp [extractRow, h1, h2]
  · intro i hi
    exact List.getD_eq_default _ _ hi
  · intro rows sh r hr
    exact List.mem_filterMap.mp hr

theorem extractor_filter_witness :
    (extractRow ["123", "Dana", "", "בה\"ס לרפואה"]).isSome ↔
      (cellStr ["123", "Dana", "", "בה\"ס לרפואה"] 0 ≠ ""
        ∧ cellStr ["123", "Dana", "", "בה\"ס לרפואה"] 3 = required_department) :=
  (extractor_filter ["123", "Dana", "", "בה\"ס לרפואה"]).1

/-- The dedupe loop of `main` (`seen = set(); users = []; for uid, name in
...`): keeps the first occurrence of each user id, preserving order.
`seen` is the set of ids already kept. -/
def dedupeGo : List UserRec → List String → List UserRec
  | [], _ => []
  | (uid, name) :: rest, seen =>
    if uid ∈ seen then dedupeGo rest seen
    else (uid, name) :: dedupeGo rest (uid :: seen)

/-- The read + dedupe phase of `main`, starting from an empty `seen` set. -/
def dedupeUsers (l : List UserRec) : List UserRec := dedupeGo l []

/-- The `total` count: `len(users)`, truncated by the limit when `args.limit > 0`. -/
def effectiveTotal (users : List UserRec) (limit : Int) : Nat :=
  if 0 < limit then min users.length limit.toNat else users.length

/-- The records the upload loop iterates over: `users[:total]`. -/
def processedUsers (users : List UserRec) (limit : Int) : List UserRec :=
  users.take (effectiveTotal users limit)

theorem dedupeGo_sublist : ∀ (l : List UserRec) (seen : List String),
    (dedupeGo l seen).Sublist l
  | [], _ => by simp [dedupeGo]
  | (uid, name) :: rest, seen => by
    simp only [dedupeGo]
    split
    · exact (dedupeGo_sublist rest seen).cons _
    · exact (dedupeGo_sublist rest (uid :: seen)).cons₂ _

theorem dedupeGo_first_occ : ∀ (l : List UserRec) (seen : List String) (p : UserRec),
    p ∈ dedupeGo l seen →
    p.1 ∉ seen ∧ l.find? (fun q => q.1 == p.1) = some p
  | [], seen, p => by simp [dedupeGo]
  | (uid, name) :: rest, seen, p => by
    simp only [dedupeGo]
    split
    · intro hp
      have ih := dedupeGo_first_occ rest seen p hp
      have hne : (uid == p.1) = false := by
        rw [beq_eq_false_iff_ne]
        intro he
        exact ih.1 (he ▸ (by assumption : uid ∈ seen))
      refine ⟨ih.1, ?_⟩
      rw [List.find?_cons]
      simp only [hne]
      exact ih.2
    · intro hp
      rcases List.mem_cons.mp hp with he | hmem
      · subst he
        refine ⟨by assumption, ?_⟩
        rw [List.find?_cons]
        simp
      · have ih := dedupeGo_first_occ rest (uid :: seen) p hmem
        have hne : (uid == p.1) = false := by
          rw [beq_eq_false_iff_ne]
          intro he
          exact ih.1 (he ▸ List.mem_cons_self uid seen)
        refine ⟨fun hs => ih.1 (List.mem_cons_of_mem _ hs), ?_⟩
        rw [List.find?_cons]
        simp only [hne]
        exact ih.2

theorem dedupeGo_complete : ∀ (l : List UserRec) (seen : List String) (uid : String),
    uid ∈ l.map Prod.fst → uid ∉ seen → uid ∈ (dedupeGo l seen).map Prod.fst
  | [], _, _ => by simp
  | (u, name) :: rest, seen, uid => by
    intro hmem hnot
    simp only [List.map_cons, List.mem_cons] at hmem
    simp only [dedupeGo]
    split
    · rcases hmem with he | hm
      · exact absurd (he ▸ (by assumption : u ∈ seen)) hnot
      · exact dedupeGo_complete rest seen uid hm hnot
    · by_cases he : uid = u
      · subst he
        simp
      · rcases hmem with he2 | hm
        · exact absurd he2 he
        · have hnot2 : uid ∉ u :: seen := by
            simp only [List.mem_cons]
            rintro (h3 | h3)
            · exact he h3
            · exact hnot h3
          simp only [List.map_cons, List.mem_cons]
          exact Or.inr (dedupeGo_complete rest (u :: seen) uid hm hnot2)

theorem dedupeGo_nodup : ∀ (l : List UserRec) (seen : List String),
    ((dedupeGo l seen).map Prod.fst).Nodup
  | [], _ => by simp [dedupeGo]
  | (u, name) :: rest, seen => by
    simp only [dedupeGo]
    split
    · exact dedupeGo_nodup rest seen
    · simp only [List.map_cons, List.nodup_cons]
      refine ⟨?_, dedupeGo_nodup rest (u :: seen)⟩
      intro hmem
      rcases List.mem_map.mp hmem with ⟨p, hp, hpe⟩
      have h1 := (dedupeGo_first_occ rest (u :: seen) p hp).1
      exact h1 (by rw [hpe]; exact List.mem_cons_self u seen)

/-- C4: dedupe keeps the first occurrence of each id with that occurrence's
name, preserves relative order (the output is a sublist of the input), keeps
each id exactly once (no id lost, none repeated); and with `limit = L > 0`
and `U` unique records, exactly `min(L, U)` records are processed. -/
theorem dedupe_and_limit (l : List UserRec) (L : Int) (hL : 0 < L) :
    (dedupeUsers l).Sublist l
    ∧ (∀ p ∈ dedupeUsers l, l.find? (fun q => q.1 == p.1) = some p)
    ∧ (∀ uid ∈ l.map Prod.fst, uid ∈ (dedupeUsers l).map Prod.fst)
    ∧ ((dedupeUsers l).map Prod.fst).Nodup
    ∧ (processedUsers (dedupeUsers l) L).length = min L.toNat (dedupeUsers l).length := by
  refine ⟨dedupeGo_sublist l [], fun p hp => (dedupeGo_first_occ l [] p hp).2,
    fun uid hm => dedupeGo_complete l [] uid hm (by simp), dedupeGo_nodup l [], ?_⟩
  simp only [processedUsers, effectiveTotal, if_pos hL, List.length_take]
  omega

theorem dedupe_and_limit_witness :
    ((0 : Int) < 1)
    ∧ (processedUsers (dedupeUsers [("a", none), ("a", some "x"), ("b", none)]) 1).length
        = min (1 : Int).toNat (dedupeUsers [("a", none), ("a", some "x"), ("b", none)]).length :=
  ⟨by decide,
    (dedupe_and_limit [("a", none), ("a", some "x"), ("b", none)] 1 (by decide)).2.2.2.2⟩

/-- Per-record accumulator of the inner batch loop (`ok`, `fail`,
`first_err`), plus the records for which `create_user_item` (and hence the
Request Client) was invoked, in order. -/
structure BatchReport (ρ ε : Type) where
  ok : Nat
  fail : Nat
  firstErr : Option ε
  attempted : List ρ

/-- One iteration of `for uid, name in batch_users: try ... except ...`.
`create r` abstracts the `create_user_item` call for record `r`: `.error e`
is a raised exception (the `RequestFailed` `RuntimeError`), caught here. -/
def stepRecord (create : ρ → Except ε Unit) (acc : BatchReport ρ ε) (r : ρ) :
    BatchReport ρ ε :=
  match create r with
  | .ok _ => ⟨acc.ok + 1, acc.fail, acc.firstErr, acc.attempted ++ [r]⟩
  | .error e =>
    ⟨acc.ok, acc.fail + 1,
     match acc.firstErr with
     | none => some e
     | some e0 => some e0,
     acc.attempted ++ [r]⟩

/-- The inner loop over one batch, from `ok = 0, fail = 0, first_err = None`. -/
def runBatch (create : ρ → Except ε Unit) (batch : List ρ) : BatchReport ρ ε :=
  batch.foldl (stepRecord create) ⟨0, 0, none, []⟩

/-- The errors of the failing records of a batch, in order. -/
def batchFailures (create : ρ → Except ε Unit) (b : List ρ) : List ε :=
  b.filterMap (fun r => errOf (create r))

/-- Aggregate state across batches: the running `created` counter, the
batch-level error lines written to stderr (one per batch with at least one
failure, carrying that batch's first error), and every record attempted. -/
structure UploadState (ρ ε : Type) where
  created : Nat
  loggedErrors : List ε
  attempted : List ρ

/-- One iteration of `for batch_users in chunked(...)`: run the batch, add
its successes to `created`, and log the first failure when the batch had
any (`if fail > 0 and first_err:`). -/
def stepBatch (create : ρ → Except ε Unit) (st : UploadState ρ ε) (b : List ρ) :
    UploadState ρ ε :=
  let rep := runBatch create b
  ⟨st.created + rep.ok,
   st.loggedErrors ++
     (if 0 < rep.fail then
        match rep.firstErr with
        | some e => [e]
        | none => []
      else []),
   st.attempted ++ rep.attempted⟩

/-- The whole upload loop of `main`. -/
def runUpload (create : ρ → Except ε Unit) (batches : List (List ρ)) :
    UploadState ρ ε :=
  batches.foldl (stepBatch create) ⟨0, [], []⟩

theorem runBatch_go (create : ρ → Except ε Unit) : ∀ (b : List ρ) (acc : BatchReport ρ ε),
    b.foldl (stepRecord create) acc =
      ⟨acc.ok + (b.length - (batchFailures create b).length),
       acc.fail + (batchFailures create b).length,
       match acc.firstErr with
       | some e => some e
       | none => (batchFailures create b).head?,
       acc.attempted ++ b⟩
  | [], acc => by
    cases acc with
    | mk ok fail firstErr attempted =>
      cases firstErr <;> simp [batchFailures]
  | r :: rest, acc => by
    have hle : (batchFailures create rest).length ≤ rest.length :=
      List.length_filterMap_le _ _
    simp only [List.foldl_cons]
    rw [runBatch_go create rest (stepRecord create acc r)]
    cases h : create r with
    | ok u =>
      have hbf : batchFailures create (r :: rest) = batchFailures create rest := by
        simp [batchFailures, List.filterMap_cons, h, errOf]
      simp only [stepRecord, h, hbf, List.length_cons]
      rw [BatchReport.mk.injEq]
      refine ⟨by omega, by omega, rfl, by simp⟩
    | error e =>
      have hbf : batchFailures create (r :: rest) = e :: batchFailures create rest := by
        simp [batchFailures, List.filterMap_cons, h, errOf]
      simp only [stepRecord, h, hbf, List.length_cons]
      rw [BatchReport.mk.injEq]
      cases hfe : acc.firstErr with
      | none => exact ⟨by omega, by omega, by simp, by simp⟩
      | some e0 => exact ⟨by omega, by omega, by simp, by simp⟩

theorem runBatch_spec (create : ρ → Except ε Unit) (b : List ρ) :
    runBatch create b =
      ⟨b.length - (batchFailures create b).length,
       (batchFailures create b).length,
       (batchFailures create b).head?,
       b⟩ := by
  unfold runBatch
  rw [runBatch_go]
  simp

theorem runUpload_go (create : ρ → Except ε Unit) :
    ∀ (batches : List (List ρ)) (st : UploadState ρ ε),
    batches.foldl (stepBatch create) st =
      ⟨st.created + (batches.map (fun b => b.length - (batchFailures create b).length)).sum,
       st.loggedErrors ++ batches.filterMap (fun b => (batchFailures create b).head?),
       st.attempted ++ batches.flatten⟩
  | [], st => by
    cases st
    simp
  | b :: rest, st => by
    simp only [List.foldl_cons]
    rw [runUpload_go create rest (stepBatch create st b)]
    simp only [stepBatch, runBatch_spec]
    rw [UploadState.mk.injEq]
    refine ⟨by simp [List.sum_cons]; omega, ?_, by simp⟩
    cases hbf : batchFailures create b with
    | nil => simp [List.filterMap_cons, hbf]
    | cons e t => simp [List.filterMap_cons, hbf]

theorem runUpload_attempted (create : ρ → Except ε Unit) (batches : List (List ρ)) :
    (runUpload create batches).attempted = batches.flatten := by
  unfold runUpload
  rw [runUpload_go]
  simp

/-- Outcome of `main` from the read + dedupe phase onwards (file validation,
decryption and config loading — the excluded collaborators — succeeded). -/
structure RunOutcome (ε : Type) where
  exitCode : Nat
  created : Nat
  attempted : List UserRec
  loggedErrors : List ε
  preview : List UserRec
  noWork : Bool

/-- The call `chunked(users[:total], max(1, args.batch))` made by `main`. -/
def orchestratorBatches (users : List α) (batch : Int) : List (List α) :=
  chunked users (max 1 batch).toNat

/-- The core of `main`: dedupe by id, apply the limit, short-circuit on
"no work" (printing `No user rows found to process.` and returning 0),
else on dry mode (previewing `users[:min(10, total)]` and returning 0),
else upload in sequential batches and return 0. -/
def mainRun (rows : List (List String)) (no_header : Bool) (limit : Int)
    (dry : Bool) (batch : Int) (create : UserRec → Except ε Unit) : RunOutcome ε :=
  let users := dedupeUsers (read_users_from_workbook rows (!no_header))
  let total := effectiveTotal users limit
  if total = 0 then ⟨0, 0, [], [], [], true⟩
  else if dry then ⟨0, 0, [], [], users.take (min 10 total), false⟩
  else
    let st := runUpload create (orchestratorBatches (users.take total) batch)
    ⟨0, st.created, st.attempted, st.loggedErrors, [], false⟩

theorem orchestratorBatches_flatten (users : List α) (batch : Int) :
    (orchestratorBatches users batch).flatten = users := by
  have h1 : 1 ≤ (max 1 batch).toNat := by omega
  obtain ⟨m, hm⟩ : ∃ m, (max 1 batch).toNat = m + 1 := ⟨(max 1 batch).toNat - 1, by omega⟩
  unfold orchestratorBatches
  rw [hm]
  exact chunked_flatten users m

def createOk : UserRec → Except Nat Unit := fun _ => .ok ()

/-- C2: inside a batch each raised `RequestFailed` is caught per record:
`fail` counts exactly the failing records, every record of the batch is
still attempted (`ok + fail` covers the whole batch), only the batch's first
failure is logged (exactly one stderr line per batch that had a failure,
carrying its first error), all batches are processed, and `main` still
returns exit code 0. -/
theorem batch_failure_isolation (create : UserRec → Except ε Unit)
    (batches : List (List UserRec)) (b : List UserRec)
    (rows : List (List String)) (nh : Bool) (limit : Int) (batch : Int) :
    ((runBatch create b).fail = (batchFailures create b).length
      ∧ (runBatch create b).ok + (runBatch create b).fail = b.length
      ∧ (runBatch create b).firstErr = (batchFailures create b).head?
      ∧ (runBatch create b).attempted = b)
    ∧ (runUpload create batches).loggedErrors =
        batches.filterMap (fun c => (batchFailures create c).head?)
    ∧ (runUpload create batches).attempted = batches.flatten
    ∧ (mainRun rows nh limit false batch create).exitCode = 0 := by
  have hb := runBatch_spec create b
  have hle : (batchFailures create b).length ≤ b.length := List.length_filterMap_le _ _
  refine ⟨⟨by rw [hb], by rw [hb]; simp; omega, by rw [hb], by rw [hb]⟩, ?_,
    runUpload_attempted create batches, ?_⟩
  · unfold runUpload
    rw [runUpload_go]
    simp
  · simp only [mainRun]
    split
    · rfl
    · rfl

theorem batch_failure_isolation_witness :
    (mainRun [] false 0 false 0 createOk).exitCode = 0 :=
  (batch_failure_isolation createOk [] [] [] false 0 0).2.2.2

/-- C7: with dry mode enabled (and extraction succeeded, which is this
model's starting point), the Request Client is never invoked, nothing is
created, at most 10 records are previewed, and the exit code is 0 —
regardless of how many records were extracted. -/
theorem dry_mode_no_network (rows : List (List String)) (nh : Bool) (limit : Int)
    (batch : Int) (create : UserRec → Except ε Unit) :
    (mainRun rows nh limit true batch create).exitCode = 0
    ∧ (mainRun rows nh limit true batch create).attempted = []
    ∧ (mainRun rows nh limit true batch create).created = 0
    ∧ (mainRun rows nh limit true batch create).preview.length ≤ 10 := by
  simp only [mainRun]
  split
  · exact ⟨rfl, rfl, rfl, by simp⟩
  · refine ⟨rfl, rfl, rfl, ?_⟩
    simp only [if_true, List.length_take]
    omega

theorem dry_mode_no_network_witness :
    (mainRun ([] : List (List String)) false 0 true 0 createOk).attempted = [] :=
  (dry_mode_no_network [] false 0 0 createOk).2.1

/-- C8: when the deduplicated and limit-truncated record set is empty
(`total = 0`), `main` reports no work, makes no network call, and returns
exit code 0. -/
theorem no_work_short_circuit (rows : List (List String)) (nh : Bool) (limit : Int)
    (dry : Bool) (batch : Int) (create : UserRec → Except ε Unit)
    (h : effectiveTotal (dedupeUsers (read_users_from_workbook rows (!nh))) limit = 0) :
    mainRun rows nh limit dry batch create = ⟨0, 0, [], [], [], true⟩ := by
  simp only [mainRun]
  rw [if_pos h]

theorem no_work_short_circuit_witness :
    effectiveTotal (dedupeUsers (read_users_from_workbook [] (!false))) 0 = 0
    ∧ mainRun ([] : List (List String)) false 0 false 0 createOk = ⟨0, 0, [], [], [], true⟩ :=
  ⟨rfl, no_work_short_circuit [] false 0 false 0 createOk rfl⟩

/-- C10: for `n ≥ 1` the concatenation of `chunked(lst, n)` is `lst` itself
(each element exactly once, in order); the orchestrator batches with
`max(1, batch)`, so whatever integer batch size is configured, the records
attempted are exactly the deduplicated, limit-truncated records, each once,
in order. -/
theorem chunked_covers_all (lst : List α) (n : Nat) (hn : 1 ≤ n)
    (users : List UserRec) (batch : Int) (rows : List (List String)) (nh : Bool)
    (limit : Int) (create : UserRec → Except ε Unit) :
    (chunked lst n).flatten = lst
    ∧ (orchestratorBatches users batch).flatten = users
    ∧ (mainRun rows nh limit false batch create).attempted =
        processedUsers (dedupeUsers (read_users_from_workbook rows (!nh))) limit := by
  refine ⟨?_, orchestratorBatches_flatten users batch, ?_⟩
  · obtain ⟨m, rfl⟩ : ∃ m, n = m + 1 := ⟨n - 1, by omega⟩
    exact chunked_flatten lst m
  · simp only [mainRun]
    split
    · rename_i h0
      simp only [processedUsers, h0, List.take_zero]
    · rw [runUpload_attempted, orchestratorBatches_flatten]
      rfl

theorem chunked_covers_all_witness :
    ((1 : Nat) ≤ 1) ∧ (chunked [1, 2, 3] 1).flatten = [1, 2, 3] :=
  ⟨by decide, (chunked_covers_all [1, 2, 3] 1 (by decide) [] 0 [] false 0 createOk).1⟩

end AddUsers
